import Mathlib

/-!
Verification of the significant-interval extraction core and the statistical
post-processing logic of the stats4_FE analysis scripts.

The embedding is shallow: real-valued numpy arrays become `List ℚ`, the
boolean significance mask becomes a decidable predicate, and the Python
block-accumulation loop of `emgmain.py` becomes a structurally recursive
function over the ascending list of significant indices.
-/

namespace Stats4FE

/-- Significance of sample `i` of a statistic curve: `i` is in range and the
curve value strictly exceeds the critical threshold.  This is entry `i` of the
boolean mask `t_results.z > t_results.zstar` used at emgmain.py line 88. -/
def above (curve : List ℚ) (threshold : ℚ) (i : ℕ) : Prop :=
  i < curve.length ∧ threshold < curve.getD i 0

instance (curve : List ℚ) (threshold : ℚ) (i : ℕ) : Decidable (above curve threshold i) :=
  inferInstanceAs (Decidable (_ ∧ _))

/-- `np.where(t_results.z > t_results.zstar)[0]` (emgmain.py line 88): the
ascending list of sample indices whose statistic exceeds the threshold. -/
def sig_indices (curve : List ℚ) (threshold : ℚ) : List ℕ :=
  (List.range curve.length).filter (fun i => decide (threshold < curve.getD i 0))

/-- The block-accumulation loop of emgmain.py lines 91-96: `start` is the
first index of the run being built, `prev` the last significant index already
consumed, and the list argument the remaining significant indices.  A gap
(`j ≠ prev + 1`) closes the block `(start, prev)` and opens a new run at `j`;
exhausting the indices emits the final block. -/
def blocksAux : ℕ → ℕ → List ℕ → List (ℕ × ℕ)
  | start, prev, [] => [(start, prev)]
  | start, prev, j :: rest =>
    if j ≠ prev + 1 then (start, prev) :: blocksAux j j rest
    else blocksAux start j rest

/-- emgmain.py lines 89-96: no significant index yields no block; otherwise
the loop starts with `start = sig_indices[0]`. -/
def blocks : List ℕ → List (ℕ × ℕ)
  | [] => []
  | j :: rest => blocksAux j j rest

/-- The significant-block extractor of emgmain.py lines 87-96, producing the
(start index, end index) pairs that the source then formats as percentage
strings for the "Significant Gait Phases" column. -/
def sig_blocks (curve : List ℚ) (threshold : ℚ) : List (ℕ × ℕ) :=
  blocks (sig_indices curve threshold)

/-- A maximal run of consecutive significant samples: every sample from `s`
to `e` satisfies `P`, and the run can be extended in neither direction. -/
def isMaxRun (P : ℕ → Prop) (s e : ℕ) : Prop :=
  s ≤ e ∧ (∀ i, s ≤ i → i ≤ e → P i) ∧ (s = 0 ∨ ¬ P (s - 1)) ∧ ¬ P (e + 1)

example : sig_blocks [5, 0, 5, 5, 0, 5] 1 = [(0, 0), (2, 3), (5, 5)] := by decide
example : sig_blocks [0, 0, 5, 5, 0, 0] 1 = [(2, 3)] := by decide
example : sig_blocks [0, 5, 0] 1 = [(1, 1)] := by decide
example : sig_blocks [0, 0, 0] 1 = [] := by decide
example : sig_blocks [] 1 = [] := by decide

lemma mem_sig_indices {curve : List ℚ} {threshold : ℚ} {j : ℕ} :
    j ∈ sig_indices curve threshold ↔ above curve threshold j := by
  simp [sig_indices, above, List.mem_filter, List.mem_range]

lemma pairwise_sig_indices (curve : List ℚ) (threshold : ℚ) :
    (sig_indices curve threshold).Pairwise (fun a b => a < b) :=
  List.Pairwise.sublist (List.filter_sublist _) (List.pairwise_lt_range _)

lemma mem_blocksAux (P : ℕ → Prop) (s e : ℕ) :
    ∀ (L : List ℕ) (start prev : ℕ),
      L.Pairwise (fun a b => a < b) →
      (∀ j, j ∈ L ↔ (P j ∧ prev < j)) →
      start ≤ prev →
      (∀ i, start ≤ i → i ≤ prev → P i) →
      (start = 0 ∨ ¬ P (start - 1)) →
      ((s, e) ∈ blocksAux start prev L ↔ (isMaxRun P s e ∧ (s = start ∨ prev < s))) := by
  intro L
  induction L with
  | nil =>
    intro start prev _ hmem hsp hrun hleft
    constructor
    · intro hin
      simp only [blocksAux, List.mem_singleton, Prod.mk.injEq] at hin
      obtain ⟨hs, he⟩ := hin
      subst hs; subst he
      refine ⟨⟨hsp, hrun, hleft, ?_⟩, Or.inl rfl⟩
      intro hP
      have : e + 1 ∈ ([] : List ℕ) := (hmem _).2 ⟨hP, Nat.lt_succ_self _⟩
      simp at this
    · rintro ⟨⟨hse, hrunse, _, hright⟩, hc⟩
      rcases hc with hs | hs
      · subst hs
        have he : e = prev := by
          rcases lt_trichotomy e prev with h | h | h
          · exact absurd (hrun (e + 1) (by omega) (by omega)) hright
          · exact h
          · exfalso
            have hP : P (prev + 1) := hrunse (prev + 1) (by omega) (by omega)
            have : prev + 1 ∈ ([] : List ℕ) := (hmem _).2 ⟨hP, Nat.lt_succ_self _⟩
            simp at this
        subst he
        simp [blocksAux]
      · exfalso
        have hP : P s := hrunse s le_rfl hse
        have : s ∈ ([] : List ℕ) := (hmem _).2 ⟨hP, hs⟩
        simp at this
  | cons j rest ih =>
    intro start prev hpw hmem hsp hrun hleft
    have hjmem : P j ∧ prev < j := (hmem j).1 (List.mem_cons_self _ _)
    have hrest_lt : ∀ x ∈ rest, j < x := (List.pairwise_cons.1 hpw).1
    have hpw' : rest.Pairwise (fun a b => a < b) := (List.pairwise_cons.1 hpw).2
    have hmem' : ∀ x, x ∈ rest ↔ (P x ∧ j < x) := by
      intro x
      constructor
      · intro hx
        exact ⟨((hmem x).1 (List.mem_cons_of_mem _ hx)).1, hrest_lt x hx⟩
      · rintro ⟨hPx, hjx⟩
        have hxL : x ∈ j :: rest := (hmem x).2 ⟨hPx, lt_trans hjmem.2 hjx⟩
        rcases List.mem_cons.1 hxL with h | h
        · omega
        · exact h
    by_cases hgap : j = prev + 1
    · have heq : blocksAux start prev (j :: rest) = blocksAux start j rest := by
        simp [blocksAux, hgap]
      rw [heq]
      have hrun' : ∀ i, start ≤ i → i ≤ j → P i := by
        intro i h1 h2
        rcases Nat.lt_or_ge i j with h | h
        · exact hrun i h1 (by omega)
        · have hij : i = j := le_antisymm h2 h
          subst hij; exact hjmem.1
      rw [ih start j hpw' hmem' (by omega) hrun' hleft]
      constructor
      · rintro ⟨hmr, hc⟩
        refine ⟨hmr, ?_⟩
        rcases hc with h | h
        · exact Or.inl h
        · exact Or.inr (by omega)
      · rintro ⟨hmr, hc⟩
        refine ⟨hmr, ?_⟩
        rcases hc with h | h
        · exact Or.inl h
        · rcases Nat.lt_or_ge j s with h2 | h2
          · exact Or.inr h2
          · exfalso
            rcases hmr.2.2.1 with h0 | hnp
            · omega
            · apply hnp
              have hsj : s - 1 = prev := by omega
              rw [hsj]
              exact hrun prev hsp le_rfl
    · have hj2 : prev + 1 < j := by omega
      have heq : blocksAux start prev (j :: rest) = (start, prev) :: blocksAux j j rest := by
        simp [blocksAux, hgap]
      have hnp1 : ¬ P (prev + 1) := by
        intro hP
        have hmemp : prev + 1 ∈ j :: rest := (hmem _).2 ⟨hP, Nat.lt_succ_self _⟩
        rcases List.mem_cons.1 hmemp with h | h
        · omega
        · have := hrest_lt _ h; omega
      have hleft' : j = 0 ∨ ¬ P (j - 1) := by
        right
        intro hP
        have hmemj1 : j - 1 ∈ j :: rest := (hmem _).2 ⟨hP, by omega⟩
        rcases List.mem_cons.1 hmemj1 with h | h
        · omega
        · have := hrest_lt _ h; omega
      rw [heq, List.mem_cons,
        ih j j hpw' hmem' le_rfl
          (fun i h1 h2 => by have hij : i = j := le_antisymm h2 h1; subst hij; exact hjmem.1)
          hleft']
      constructor
      · rintro (h | ⟨hmr, hc⟩)
        · rw [Prod.mk.injEq] at h
          obtain ⟨hs, he⟩ := h
          subst hs; subst he
          exact ⟨⟨hsp, hrun, hleft, hnp1⟩, Or.inl rfl⟩
        · refine ⟨hmr, Or.inr ?_⟩
          rcases hc with h | h <;> omega
      · rintro ⟨hmr, hc⟩
        rcases hc with hs | hs
        · subst hs
          left
          rw [Prod.mk.injEq]
          obtain ⟨hse, hrunse, _, hright⟩ := hmr
          refine ⟨rfl, ?_⟩
          rcases lt_trichotomy e prev with h | h | h
          · exact absurd (hrun (e + 1) (by omega) (by omega)) hright
          · exact h
          · exact absurd (hrunse (prev + 1) (by omega) (by omega)) hnp1
        · right
          refine ⟨hmr, ?_⟩
          have hPs : P s := hmr.2.1 s le_rfl hmr.1
          have hsL : s ∈ j :: rest := (hmem s).2 ⟨hPs, hs⟩
          rcases List.mem_cons.1 hsL with h | h
          · exact Or.inl h
          · exact Or.inr (hrest_lt _ h)

lemma mem_blocks (P : ℕ → Prop) (L : List ℕ) (s e : ℕ)
    (hpw : L.Pairwise (fun a b => a < b))
    (hmem : ∀ j, j ∈ L ↔ P j) :
    ((s, e) ∈ blocks L ↔ isMaxRun P s e) := by
  cases L with
  | nil =>
    simp only [blocks, List.not_mem_nil, false_iff]
    rintro ⟨hse, hrun, _, _⟩
    have : s ∈ ([] : List ℕ) := (hmem s).2 (hrun s le_rfl hse)
    simp at this
  | cons j rest =>
    have hjP : P j := (hmem j).1 (List.mem_cons_self _ _)
    have hrest_lt : ∀ x ∈ rest, j < x := (List.pairwise_cons.1 hpw).1
    have hpw' : rest.Pairwise (fun a b => a < b) := (List.pairwise_cons.1 hpw).2
    have hmem' : ∀ x, x ∈ rest ↔ (P x ∧ j < x) := by
      intro x
      constructor
      · intro hx
        exact ⟨(hmem x).1 (List.mem_cons_of_mem _ hx), hrest_lt x hx⟩
      · rintro ⟨hPx, hjx⟩
        rcases List.mem_cons.1 ((hmem x).2 hPx) with h | h
        · omega
        · exact h
    have hleft' : j = 0 ∨ ¬ P (j - 1) := by
      rcases Nat.eq_zero_or_pos j with h | h
      · exact Or.inl h
      · right
        intro hP
        rcases List.mem_cons.1 ((hmem _).2 hP) with h2 | h2
        · omega
        · have := hrest_lt _ h2; omega
    show (s, e) ∈ blocksAux j j rest ↔ _
    rw [mem_blocksAux P s e rest j j hpw' hmem' le_rfl
      (fun i h1 h2 => by have hij : i = j := le_antisymm h2 h1; subst hij; exact hjP)
      hleft']
    constructor
    · rintro ⟨hmr, _⟩; exact hmr
    · intro hmr
      refine ⟨hmr, ?_⟩
      have hPs : P s := hmr.2.1 s le_rfl hmr.1
      rcases List.mem_cons.1 ((hmem s).2 hPs) with h | h
      · exact Or.inl h
      · exact Or.inr (hrest_lt _ h)

lemma sig_blocks_mem (curve : List ℚ) (threshold : ℚ) (s e : ℕ) :
    ((s, e) ∈ sig_blocks curve threshold ↔ isMaxRun (above curve threshold) s e) :=
  mem_blocks _ _ s e (pairwise_sig_indices curve threshold) (fun _ => mem_sig_indices)

lemma blocksAux_fst_ge :
    ∀ (L : List ℕ) (start prev : ℕ), L.Pairwise (fun a b => a < b) →
      (∀ x ∈ L, prev < x) → start ≤ prev →
      ∀ q ∈ blocksAux start prev L, start ≤ q.1 := by
  intro L
  induction L with
  | nil =>
    intro start prev _ _ _ q hq
    simp only [blocksAux, List.mem_singleton] at hq
    subst hq
    exact le_rfl
  | cons j rest ih =>
    intro start prev hpw hgt hsp q hq
    have hj : prev < j := hgt j (List.mem_cons_self _ _)
    have hrest_lt : ∀ x ∈ rest, j < x := (List.pairwise_cons.1 hpw).1
    have hpw' : rest.Pairwise (fun a b => a < b) := (List.pairwise_cons.1 hpw).2
    by_cases hgap : j = prev + 1
    · rw [show blocksAux start prev (j :: rest) = blocksAux start j rest by
        simp [blocksAux, hgap]] at hq
      exact ih start j hpw' hrest_lt (by omega) q hq
    · rw [show blocksAux start prev (j :: rest) = (start, prev) :: blocksAux j j rest by
        simp [blocksAux, hgap]] at hq
      rcases List.mem_cons.1 hq with h | h
      · subst h; exact le_rfl
      · have := ih j j hpw' hrest_lt le_rfl q h
        omega

lemma blocksAux_fst_le_snd :
    ∀ (L : List ℕ) (start prev : ℕ), L.Pairwise (fun a b => a < b) →
      (∀ x ∈ L, prev < x) → start ≤ prev →
      ∀ q ∈ blocksAux start prev L, q.1 ≤ q.2 := by
  intro L
  induction L with
  | nil =>
    intro start prev _ _ hsp q hq
    simp only [blocksAux, List.mem_singleton] at hq
    subst hq
    exact hsp
  | cons j rest ih =>
    intro start prev hpw hgt hsp q hq
    have hj : prev < j := hgt j (List.mem_cons_self _ _)
    have hrest_lt : ∀ x ∈ rest, j < x := (List.pairwise_cons.1 hpw).1
    have hpw' : rest.Pairwise (fun a b => a < b) := (List.pairwise_cons.1 hpw).2
    by_cases hgap : j = prev + 1
    · rw [show blocksAux start prev (j :: rest) = blocksAux start j rest by
        simp [blocksAux, hgap]] at hq
      exact ih start j hpw' hrest_lt (by omega) q hq
    · rw [show blocksAux start prev (j :: rest) = (start, prev) :: blocksAux j j rest by
        simp [blocksAux, hgap]] at hq
      rcases List.mem_cons.1 hq with h | h
      · subst h; exact hsp
      · exact ih j j hpw' hrest_lt le_rfl q h

lemma blocksAux_disjoint :
    ∀ (L : List ℕ) (start prev : ℕ), L.Pairwise (fun a b => a < b) →
      (∀ x ∈ L, prev < x) → start ≤ prev →
      List.Pairwise (fun a b : ℕ × ℕ => a.2 < b.1) (blocksAux start prev L) := by
  intro L
  induction L with
  | nil =>
    intro start prev _ _ _
    simp [blocksAux]
  | cons j rest ih =>
    intro start prev hpw hgt hsp
    have hj : prev < j := hgt j (List.mem_cons_self _ _)
    have hrest_lt : ∀ x ∈ rest, j < x := (List.pairwise_cons.1 hpw).1
    have hpw' : rest.Pairwise (fun a b => a < b) := (List.pairwise_cons.1 hpw).2
    by_cases hgap : j = prev + 1
    · rw [show blocksAux start prev (j :: rest) = blocksAux start j rest by
        simp [blocksAux, hgap]]
      exact ih start j hpw' hrest_lt (by omega)
    · rw [show blocksAux start prev (j :: rest) = (start, prev) :: blocksAux j j rest by
        simp [blocksAux, hgap]]
      refine List.pairwise_cons.2 ⟨?_, ih j j hpw' hrest_lt le_rfl⟩
      intro b hb
      have := blocksAux_fst_ge rest j j hpw' hrest_lt le_rfl b hb
      show prev < b.1
      omega

lemma blocksAux_covers :
    ∀ (L : List ℕ) (start prev i : ℕ), start ≤ prev →
      ((start ≤ i ∧ i ≤ prev) ∨ i ∈ L) →
      ∃ q ∈ blocksAux start prev L, q.1 ≤ i ∧ i ≤ q.2 := by
  intro L
  induction L with
  | nil =>
    intro start prev i _ hcov
    rcases hcov with h | h
    · exact ⟨(start, prev), by simp [blocksAux], h.1, h.2⟩
    · simp at h
  | cons j rest ih =>
    intro start prev i hsp hcov
    by_cases hgap : j = prev + 1
    · rw [show blocksAux start prev (j :: rest) = blocksAux start j rest by
        simp [blocksAux, hgap]]
      apply ih start j i (by omega)
      rcases hcov with h | h
      · exact Or.inl ⟨h.1, by omega⟩
      · rcases List.mem_cons.1 h with h2 | h2
        · exact Or.inl ⟨by omega, by omega⟩
        · exact Or.inr h2
    · rw [show blocksAux start prev (j :: rest) = (start, prev) :: blocksAux j j rest by
        simp [blocksAux, hgap]]
      rcases hcov with h | h
      · exact ⟨(start, prev), List.mem_cons_self _ _, h.1, h.2⟩
      · rcases List.mem_cons.1 h with h2 | h2
        · subst h2
          obtain ⟨q, hq, hq1, hq2⟩ := ih i i i le_rfl (Or.inl ⟨le_rfl, le_rfl⟩)
          exact ⟨q, List.mem_cons_of_mem _ hq, hq1, hq2⟩
        · obtain ⟨q, hq, hq1, hq2⟩ := ih j j i le_rfl (Or.inr h2)
          exact ⟨q, List.mem_cons_of_mem _ hq, hq1, hq2⟩

lemma sig_blocks_fst_le_snd (curve : List ℚ) (threshold : ℚ) :
    ∀ q ∈ sig_blocks curve threshold, q.1 ≤ q.2 := by
  intro q hq
  unfold sig_blocks at hq
  rcases hL : sig_indices curve threshold with _ | ⟨j, rest⟩
  · rw [hL] at hq; simp [blocks] at hq
  · rw [hL] at hq
    have hpw := pairwise_sig_indices curve threshold
    rw [hL] at hpw
    exact blocksAux_fst_le_snd rest j j (List.pairwise_cons.1 hpw).2
      (List.pairwise_cons.1 hpw).1 le_rfl q hq

lemma sig_blocks_disjoint (curve : List ℚ) (threshold : ℚ) :
    List.Pairwise (fun a b : ℕ × ℕ => a.2 < b.1) (sig_blocks curve threshold) := by
  unfold sig_blocks
  rcases hL : sig_indices curve threshold with _ | ⟨j, rest⟩
  · simp [blocks]
  · have hpw := pairwise_sig_indices curve threshold
    rw [hL] at hpw
    exact blocksAux_disjoint rest j j (List.pairwise_cons.1 hpw).2
      (List.pairwise_cons.1 hpw).1 le_rfl

lemma sig_blocks_covers {curve : List ℚ} {threshold : ℚ} {i : ℕ}
    (h : above curve threshold i) :
    ∃ q ∈ sig_blocks curve threshold, q.1 ≤ i ∧ i ≤ q.2 := by
  have hi : i ∈ sig_indices curve threshold := mem_sig_indices.2 h
  unfold sig_blocks
  rcases hL : sig_indices curve threshold with _ | ⟨j, rest⟩
  · rw [hL] at hi; simp at hi
  · rw [hL] at hi
    rcases List.mem_cons.1 hi with h2 | h2
    · subst h2
      exact blocksAux_covers rest i i i le_rfl (Or.inl ⟨le_rfl, le_rfl⟩)
    · exact blocksAux_covers rest j j i le_rfl (Or.inr h2)

lemma sig_blocks_of_not_above {curve : List ℚ} {threshold : ℚ}
    (h : ∀ i, ¬ above curve threshold i) : sig_blocks curve threshold = [] := by
  have hnil : sig_indices curve threshold = [] := by
    refine List.eq_nil_iff_forall_not_mem.2 ?_
    intro j hj
    exact h j (mem_sig_indices.1 hj)
  simp [sig_blocks, hnil, blocks]

lemma sig_blocks_above {curve : List ℚ} {threshold : ℚ} {q : ℕ × ℕ}
    (hq : q ∈ sig_blocks curve threshold) {i : ℕ} (h1 : q.1 ≤ i) (h2 : i ≤ q.2) :
    above curve threshold i :=
  ((sig_blocks_mem curve threshold q.1 q.2).1 hq).2.1 i h1 h2

/-- Index-to-percent conversion of emgmain.py lines 94-96:
`start / n_timepoints * 100`, where `n_timepoints` is the number of time
samples of the curve (the maximal `TimePoint` value of the 1-based column). -/
def percent_emgmain (i N : ℕ) : ℚ := (i : ℚ) / (N : ℚ) * 100

/-- Index-to-percent conversion of LvsR_emgstats.py lines 64-65:
`start_time * (100 / left_matrix.shape[0])`, where `shape[0]` is the number
of time samples per curve. -/
def percent_LvsR (i N : ℕ) : ℚ := (i : ℚ) * (100 / (N : ℚ))

/-- The spec formula for the percentage of sample `i` out of `N` samples:
`percent(i) = i * 100 / N`. -/
def percent_spec (i N : ℕ) : ℚ := (i : ℚ) * 100 / (N : ℚ)

/-- The extraction block of emgmain.py lines 87-97 viewed as a fallible
computation.  The source is straight-line code with no raise statement and no
input check: an empty curve simply yields an empty index list and hence an
empty block list (rendered `"None"`), so the only constructor ever produced
is `Except.ok`. -/
def sig_blocksE (curve : List ℚ) (threshold : ℚ) : Except String (List (ℕ × ℕ)) :=
  Except.ok (sig_blocks curve threshold)

/-- The positive-tail shading mask of LvsR_emgstats.py line 86:
`where=ttest_result.z > ttest_result.zstar`. -/
def posShadeMask (z : List ℚ) (zstar : ℚ) : List Bool :=
  z.map (fun v => decide (zstar < v))

/-- The negative-tail shading mask of LvsR_emgstats.py line 87:
`where=ttest_result.z < -ttest_result.zstar`. -/
def negShadeMask (z : List ℚ) (zstar : ℚ) : List Bool :=
  z.map (fun v => decide (v < -zstar))

/-- Element-wise `np.sqrt(np.square(x))` (emgfigure.py line 42): over the
reals, `sqrt (x ^ 2) = |x|`, which is again rational for rational input, so
the composition of the two numpy element-wise maps is the absolute value. -/
def sqrtSq (x : ℚ) : ℚ := |x|

/-- emgfigure.py line 42, one timepoint:
`np.mean(np.sqrt(np.square(emg_matrix)), axis=1)` applied to the row of
per-subject values at a single time sample — the mean over subjects of the
element-wise `sqrt(square(.))`. -/
def mean_rms (row : List ℚ) : ℚ := ((row.map sqrtSq).sum) / (row.length : ℚ)

/-- Modelled from the spec: the square of the root-mean-square across
subjects of the values in `row` ("RMS EMG: root-mean-square of
electromyographic signal amplitude").  Kept in squared form so that it stays
inside ℚ; a value `v ≥ 0` equals the RMS iff `v ^ 2` equals this. -/
def rms_sq_spec (row : List ℚ) : ℚ := ((row.map (fun x => x ^ 2)).sum) / (row.length : ℚ)

/-- main.py line 113:
`np.minimum(np.array(p_values) * len(comparisons), 1.0)` — each raw p-value
is multiplied by the number `m` of comparisons and clamped at 1. -/
def bonferroni_corrected (p_values : List ℚ) (m : ℕ) : List ℚ :=
  p_values.map (fun p => min (p * (m : ℚ)) 1)

/-- One row of the post-hoc results table of main.py lines 117-122:
the "Comparison" pair, the "T-stat" column and the
"p-value (Bonferroni)" column. -/
structure PosthocRow where
  comparison : String × String
  tstat : ℚ
  p_bonf : ℚ
deriving Repr, DecidableEq, Inhabited

/-- main.py lines 103-122: for each pair of conditions run the Welch t-test
(the black-box oracle `ttest`, returning the pair (t statistic, p-value) of
`stats.ttest_ind`), keep the p-values, Bonferroni-correct them, and zip the
comparisons with the corrected and the raw p-values into result rows.  As in
the source, the tuple component bound by the zip to the name `t_stat` — and
stored in the "T-stat" column — is the element of `p_values`. -/
def posthoc_results (comparisons : List (String × String))
    (ttest : String × String → ℚ × ℚ) : List PosthocRow :=
  let p_values := comparisons.map (fun c => (ttest c).2)
  let corrected := bonferroni_corrected p_values comparisons.length
  (comparisons.zip (corrected.zip p_values)).map
    (fun x => { comparison := x.1, tstat := x.2.2, p_bonf := x.2.1 })

/-- main.py lines 101-125 for one sheet (one measure): the post-hoc
comparisons are run and their rows emitted only under
`if p_value < 0.05:`, where `p_value` is the one-way ANOVA p-value. -/
def processSheet (anova_p : ℚ) (comparisons : List (String × String))
    (ttest : String × String → ℚ × ℚ) : List PosthocRow :=
  if anova_p < 0.05 then posthoc_results comparisons ttest else []

/-- The numpy shape of a pivoted timepoints × subjects matrix
(LvsR_emgstats.py lines 39-40): (row count, column count).  The pivot output
is rectangular, so the head row length is the common column count. -/
def shape (m : List (List ℚ)) : ℕ × ℕ := (m.length, (m.headD []).length)

/-- LvsR_emgstats.py lines 42-48 for one condition/muscle-pair: the shape
guard `if left_matrix.shape != right_matrix.shape: continue` skips the
comparison (returns `none`) before the statistical test `ttest` — the
black-box SPM oracle producing this comparison's result row — is invoked. -/
def processComparison {α : Type} (ttest : List (List ℚ) → List (List ℚ) → α)
    (lr : List (List ℚ) × List (List ℚ)) : Option α :=
  if shape lr.1 = shape lr.2 then some (ttest lr.1 lr.2) else none

/-- The batch loop of LvsR_emgstats.py lines 32-93: every comparison that is
not skipped contributes its result, in order. -/
def runBatch {α : Type} (ttest : List (List ℚ) → List (List ℚ) → α)
    (pairs : List (List (List ℚ) × List (List ℚ))) : List α :=
  pairs.filterMap (processComparison ttest)

lemma pairwise_fst_lt_of {l : List (ℕ × ℕ)}
    (hd : List.Pairwise (fun a b : ℕ × ℕ => a.2 < b.1) l)
    (hle : ∀ q ∈ l, q.1 ≤ q.2) :
    List.Pairwise (fun a b : ℕ × ℕ => a.1 < b.1) l := by
  induction l with
  | nil => simp
  | cons a l ih =>
    rw [List.pairwise_cons] at hd ⊢
    refine ⟨fun b hb => ?_, ih hd.2 (fun q hq => hle q (List.mem_cons_of_mem _ hq))⟩
    have h1 := hd.1 b hb
    have h2 := hle a (List.mem_cons_self _ _)
    omega

lemma sum_map_const (row : List ℚ) (f : ℚ → ℚ) (c : ℚ) (h : ∀ x ∈ row, f x = c) :
    (row.map f).sum = (row.length : ℚ) * c := by
  induction row with
  | nil => simp
  | cons a l ih =>
    simp only [List.map_cons, List.sum_cons, List.length_cons]
    rw [h a (List.mem_cons_self _ _), ih (fun x hx => h x (List.mem_cons_of_mem _ hx))]
    push_cast
    ring

/-- C1: for every non-empty statistic curve and threshold, the extractor of
emgmain.py lines 87-96 returns exactly the maximal runs of consecutive
samples whose value exceeds the threshold — an interval is in the result iff
it is such a run, with its start the run's first index and its end the run's
last index — the intervals come in ascending index order, and when no sample
exceeds the threshold the result is empty. -/
theorem claim_C1_blocks_are_maximal_runs (curve : List ℚ) (threshold : ℚ)
    (_hne : curve ≠ []) :
    (∀ s e, ((s, e) ∈ sig_blocks curve threshold ↔ isMaxRun (above curve threshold) s e)) ∧
    List.Pairwise (fun a b : ℕ × ℕ => a.1 < b.1) (sig_blocks curve threshold) ∧
    ((∀ i, ¬ above curve threshold i) → sig_blocks curve threshold = []) := by
  refine ⟨fun s e => sig_blocks_mem curve threshold s e, ?_, sig_blocks_of_not_above⟩
  exact pairwise_fst_lt_of (sig_blocks_disjoint curve threshold)
    (sig_blocks_fst_le_snd curve threshold)

/-- Witness for C1: the boundary test of the spec, curve
`[0, 0, 5, 5, 0, 0]` with threshold 1, instantiated at the run (2, 3). -/
theorem claim_C1_witness :
    ((2, 3) ∈ sig_blocks [0, 0, 5, 5, 0, 0] 1 ↔ isMaxRun (above [0, 0, 5, 5, 0, 0] 1) 2 3) :=
  (claim_C1_blocks_are_maximal_runs [0, 0, 5, 5, 0, 0] 1 (List.cons_ne_nil _ _)).1 2 3

/-- C2: the percentage computed for sample index `i` equals `i * 100 / N`
both in the pairwise ANOVA script (emgmain.py lines 94-96, which computes
`i / N * 100`) and in the left-vs-right script (LvsR_emgstats.py lines
64-65, which computes `i * (100 / N)`); the `:.1f` format then rounds this
exact value to one decimal for display. -/
theorem claim_C2_percent_formula (i N : ℕ) :
    percent_emgmain i N = percent_spec i N ∧ percent_LvsR i N = percent_spec i N := by
  constructor
  · unfold percent_emgmain percent_spec
    rw [div_mul_eq_mul_div]
  · unfold percent_LvsR percent_spec
    rw [mul_div_assoc]

/-- C3: the textual extraction tests only `curve[i] > threshold`; a sample
with `curve[i] < -threshold` (for a non-negative threshold) is shaded by the
negative-tail mask of LvsR_emgstats.py line 87 yet is covered by no interval
of the sig_blocks extraction, so negative-direction significance never
reaches the textual "Significant Gait Phases" report. -/
theorem claim_C3_negative_tail_not_reported (z : List ℚ) (zstar : ℚ) (i : ℕ)
    (h0 : 0 ≤ zstar) (hi : i < z.length) (hneg : z.getD i 0 < -zstar) :
    (negShadeMask z zstar).getD i false = true ∧
    ∀ q ∈ sig_blocks z zstar, ¬ (q.1 ≤ i ∧ i ≤ q.2) := by
  constructor
  · unfold negShadeMask
    rw [List.getD_eq_getElem _ _ (by simpa using hi)]
    simp only [List.getElem_map, decide_eq_true_eq]
    rw [← List.getD_eq_getElem z 0 hi]
    exact hneg
  · rintro q hq ⟨h1, h2⟩
    have habove := sig_blocks_above hq h1 h2
    have hgt : zstar < z.getD i 0 := habove.2
    linarith

/-- Witness for C3: curve `[1, -5, 1]`, threshold 2, sample 1. -/
theorem claim_C3_witness :
    (negShadeMask [1, -5, 1] 2).getD 1 false = true ∧
    ∀ q ∈ sig_blocks [1, -5, 1] 2, ¬ (q.1 ≤ 1 ∧ 1 ≤ q.2) :=
  claim_C3_negative_tail_not_reported [1, -5, 1] 2 1 (by norm_num) (by norm_num)
    (by norm_num)

/-- Counterexample for C4: on the empty curve the extraction block succeeds
and produces the empty interval list (rendered `"None"`); it does not fail
with an InvalidInput condition. -/
theorem claim_C4_counterexample : sig_blocksE ([] : List ℚ) 0 = Except.ok [] := rfl

/-- C4 (amended): the extractor never fails on any input — for every curve
and threshold it produces a value, and on the empty curve that value is the
empty interval sequence rather than an InvalidInput failure. -/
theorem claim_C4_extractor_never_fails (curve : List ℚ) (threshold : ℚ) :
    (∃ r, sig_blocksE curve threshold = Except.ok r) ∧
    (curve = [] → sig_blocksE curve threshold = Except.ok []) := by
  refine ⟨⟨sig_blocks curve threshold, rfl⟩, ?_⟩
  intro h
  subst h
  rfl

/-- Witness for C4: the empty curve with threshold 1. -/
theorem claim_C4_witness : sig_blocksE ([] : List ℚ) 1 = Except.ok [] :=
  (claim_C4_extractor_never_fails [] 1).2 rfl

/-- C5: for every non-empty curve and threshold, the extracted intervals are
pairwise disjoint, strictly ordered by start percentage, each has
`start_percent ≤ end_percent`, and every sample index not covered by any
interval does not exceed the threshold. -/
theorem claim_C5_interval_invariants (curve : List ℚ) (threshold : ℚ)
    (hne : curve ≠ []) :
    List.Pairwise (fun a b : ℕ × ℕ => a.2 < b.1) (sig_blocks curve threshold) ∧
    List.Pairwise (fun a b : ℕ × ℕ =>
      percent_spec a.1 curve.length < percent_spec b.1 curve.length)
      (sig_blocks curve threshold) ∧
    (∀ q ∈ sig_blocks curve threshold,
      percent_spec q.1 curve.length ≤ percent_spec q.2 curve.length) ∧
    (∀ i, i < curve.length →
      (∀ q ∈ sig_blocks curve threshold, ¬ (q.1 ≤ i ∧ i ≤ q.2)) →
      ¬ threshold < curve.getD i 0) := by
  have hN : (0 : ℚ) < (curve.length : ℚ) := by
    have := List.length_pos.2 hne
    exact_mod_cast this
  have hmono : ∀ a b : ℕ, a < b →
      percent_spec a curve.length < percent_spec b curve.length := by
    intro a b hab
    unfold percent_spec
    apply div_lt_div_of_pos_right _ hN
    have : (a : ℚ) < (b : ℚ) := by exact_mod_cast hab
    nlinarith
  have hmono' : ∀ a b : ℕ, a ≤ b →
      percent_spec a curve.length ≤ percent_spec b curve.length := by
    intro a b hab
    rcases Nat.lt_or_ge a b with h | h
    · exact le_of_lt (hmono a b h)
    · have : a = b := le_antisymm hab h
      subst this
      exact le_rfl
  refine ⟨sig_blocks_disjoint curve threshold, ?_, ?_, ?_⟩
  · exact (pairwise_fst_lt_of (sig_blocks_disjoint curve threshold)
      (sig_blocks_fst_le_snd curve threshold)).imp (fun h => hmono _ _ h)
  · intro q hq
    exact hmono' _ _ (sig_blocks_fst_le_snd curve threshold q hq)
  · intro i hi hunc hsig
    obtain ⟨q, hq, h1, h2⟩ := sig_blocks_covers ⟨hi, hsig⟩
    exact hunc q hq ⟨h1, h2⟩

/-- Witness for C5: the multi-block curve `[5, 0, 5, 5, 0, 5]` with
threshold 1, projected on the disjointness invariant. -/
theorem claim_C5_witness :
    List.Pairwise (fun a b : ℕ × ℕ => a.2 < b.1) (sig_blocks [5, 0, 5, 5, 0, 5] 1) :=
  (claim_C5_interval_invariants [5, 0, 5, 5, 0, 5] 1 (List.cons_ne_nil _ _)).1

/-- Counterexample for C6: with subject values 1 and 7 at one time sample,
the plotted value is `(|1| + |7|) / 2 = 4`, whose square 16 differs from the
mean of squares `(1 + 49) / 2 = 25`; so the plotted value is not the
root-mean-square across subjects. -/
theorem claim_C6_counterexample : (mean_rms [1, 7]) ^ 2 ≠ rms_sq_spec [1, 7] := by
  norm_num [mean_rms, rms_sq_spec, sqrtSq]

/-- C6 (amended): the per-timepoint value plotted as "RMS EMG Activity" is
the arithmetic mean across subjects of the absolute EMG amplitude at that
time sample (the element-wise `sqrt(square(.))` of emgfigure.py line 42),
which coincides with the root-mean-square only in special cases such as when
all subjects have the same absolute amplitude. -/
theorem claim_C6_mean_abs_not_rms (row : List ℚ) (c : ℚ) (hne : row ≠ [])
    (habs : ∀ x ∈ row, |x| = c) :
    mean_rms row = c ∧ (mean_rms row) ^ 2 = rms_sq_spec row := by
  have hlen : ((row.length : ℚ)) ≠ 0 := by
    have := List.length_pos.2 hne
    positivity
  have h1 : mean_rms row = c := by
    unfold mean_rms
    rw [sum_map_const row sqrtSq c (fun x hx => habs x hx),
      mul_div_cancel_left₀ _ hlen]
  refine ⟨h1, ?_⟩
  rw [h1]
  unfold rms_sq_spec
  rw [sum_map_const row (fun x => x ^ 2) (c ^ 2)
    (fun x hx => by show x ^ 2 = c ^ 2; rw [← habs x hx, sq_abs]),
    mul_div_cancel_left₀ _ hlen]

/-- Witness for C6 (amended): the row `[3, -3]` with common magnitude 3. -/
theorem claim_C6_witness :
    mean_rms [3, -3] = 3 ∧ (mean_rms [3, -3]) ^ 2 = rms_sq_spec [3, -3] :=
  claim_C6_mean_abs_not_rms [3, -3] 3 (List.cons_ne_nil _ _)
    (by intro x hx; rcases List.mem_cons.1 hx with h | h
        · subst h; norm_num
        · simp only [List.mem_singleton] at h; subst h; norm_num)

/-- Counterexample for C7: with a single raw p-value of 1/2 and 3
comparisons, the reported corrected value is `min (3/2) 1 = 1`, not the
product `3/2`; the clamp of main.py line 113 makes the claim fail. -/
theorem claim_C7_counterexample :
    bonferroni_corrected [1/2] 3 ≠ [((1 : ℚ)/2) * 3] := by
  simp only [bonferroni_corrected, List.map_cons, List.map_nil]
  intro h
  have h1 := List.head_eq_of_cons_eq h
  rw [min_eq_right (by norm_num : ((1 : ℚ)/2) * (3 : ℕ) ≥ 1)] at h1
  norm_num at h1

/-- C7 (amended): each reported Bonferroni-corrected p-value equals
`min (raw * m, 1)` where `m` is the number of comparisons, and therefore
equals the product `raw * m` exactly when that product does not exceed 1. -/
theorem claim_C7_bonferroni_clamped (ps : List ℚ) (m i : ℕ) (hi : i < ps.length) :
    (bonferroni_corrected ps m).getD i 0 = min ((ps.getD i 0) * (m : ℚ)) 1 ∧
    ((ps.getD i 0) * (m : ℚ) ≤ 1 →
      (bonferroni_corrected ps m).getD i 0 = (ps.getD i 0) * (m : ℚ)) := by
  have h1 : (bonferroni_corrected ps m).getD i 0 = min ((ps.getD i 0) * (m : ℚ)) 1 := by
    unfold bonferroni_corrected
    rw [List.getD_eq_getElem _ _ (by simpa using hi), List.getElem_map,
      List.getD_eq_getElem _ _ hi]
  exact ⟨h1, fun h => by rw [h1]; exact min_eq_left h⟩

/-- Witness for C7 (amended): raw p-values `[1/100, 1/2]` with 3
comparisons at index 0, where the product stays below 1. -/
theorem claim_C7_witness :
    (bonferroni_corrected [1/100, 1/2] 3).getD 0 0 =
      (([(1 : ℚ)/100, 1/2].getD 0 0) * ((3 : ℕ) : ℚ)) :=
  (claim_C7_bonferroni_clamped [1/100, 1/2] 3 0 (by norm_num)).2
    (by norm_num [List.getD])

/-- C8: a condition/muscle comparison whose left and right matrices have
mismatched shapes is skipped (no statistical test is invoked for it, for any
oracle), and the batch of remaining comparisons proceeds exactly as if the
mismatched one were absent. -/
theorem claim_C8_shape_mismatch_skipped (α : Type)
    (ttest : List (List ℚ) → List (List ℚ) → α) (l r : List (List ℚ))
    (xs ys : List (List (List ℚ) × List (List ℚ)))
    (hmis : shape l ≠ shape r) :
    processComparison ttest (l, r) = none ∧
    runBatch ttest (xs ++ (l, r) :: ys) = runBatch ttest xs ++ runBatch ttest ys := by
  have h1 : processComparison ttest (l, r) = none := by
    unfold processComparison
    exact if_neg hmis
  refine ⟨h1, ?_⟩
  unfold runBatch
  rw [List.filterMap_append, List.filterMap_cons, h1]

/-- Witness for C8: a 2-by-1 left matrix against a 1-by-1 right matrix,
with a constant oracle. -/
theorem claim_C8_witness :
    processComparison (fun _ _ => (0 : ℕ)) ([[1], [2]], [[1]]) = none :=
  (claim_C8_shape_mismatch_skipped ℕ (fun _ _ => 0) [[1], [2]] [[1]] [] []
    (by decide)).1

/-- C9: in every row of the post-hoc results table, the "T-stat" column
holds the raw (uncorrected) p-value of the Welch t-test for that comparison:
the zip of main.py line 116 binds the element of `p_values` to the variable
named `t_stat`, which line 120 stores under "T-stat". -/
theorem claim_C9_tstat_column_is_raw_p (comps : List (String × String))
    (ttest : String × String → ℚ × ℚ) (i : ℕ) (hi : i < comps.length) :
    ((posthoc_results comps ttest).getD i default).tstat =
      (ttest (comps.getD i default)).2 := by
  have hlen : (posthoc_results comps ttest).length = comps.length := by
    simp [posthoc_results, bonferroni_corrected]
  rw [List.getD_eq_getElem _ _ (by rw [hlen]; exact hi),
    List.getD_eq_getElem _ _ hi]
  simp [posthoc_results, bonferroni_corrected]

/-- Witness for C9: a single comparison whose t-test oracle returns the
t statistic 7 and the raw p-value 1/10; the "T-stat" cell holds 1/10. -/
theorem claim_C9_witness :
    ((posthoc_results [("A", "B")] (fun _ => ((7 : ℚ), 1/10))).getD 0 default).tstat =
      (1 : ℚ)/10 := by
  have h := claim_C9_tstat_column_is_raw_p [("A", "B")] (fun _ => ((7 : ℚ), 1/10)) 0
    (by norm_num)
  simpa using h

/-- C10: a measure (sheet) contributes post-hoc rows only when its one-way
ANOVA p-value is strictly below 0.05; with p-value at or above 0.05 the
per-sheet contribution to the post-hoc results table is empty, and below
0.05 the pairwise t-tests are run and their rows emitted. -/
theorem claim_C10_posthoc_gated_by_anova (p : ℚ)
    (comps : List (String × String)) (ttest : String × String → ℚ × ℚ) :
    ((0.05 : ℚ) ≤ p → processSheet p comps ttest = []) ∧
    (p < 0.05 → processSheet p comps ttest = posthoc_results comps ttest) := by
  constructor
  · intro h
    unfold processSheet
    rw [if_neg (not_lt.2 h)]
  · intro h
    unfold processSheet
    rw [if_pos h]

/-- Witness for C10: ANOVA p-value 1/10 is at or above 0.05, so the sheet
contributes no rows. -/
theorem claim_C10_witness :
    processSheet (1/10) [("A", "B")] (fun _ => ((0 : ℚ), (0 : ℚ))) = [] :=
  (claim_C10_posthoc_gated_by_anova (1/10) [("A", "B")]
    (fun _ => ((0 : ℚ), (0 : ℚ)))).1 (by norm_num)

end Stats4FE
